import Mathlib

/-!
# Verification of the hpc-labbook job-orchestration core

Shallow embedding of the AiiDA components in `src/cse_labbook/aiida/`
(`data.py`, `graph.py`, `future.py`, `calcjob.py`) and proofs about them.

Conventions of the embedding:
* Python `pathlib.Path` values are modelled as `String`s joined with `/`;
  the accumulated `path : list[str]` of the tree walkers is `List String`.
* The Python `path` list is passed by reference and mutated by `append`;
  `path = path or []` rebinds the local name to a fresh list exactly when
  the incoming list is empty.  This is modelled by state passing: each
  walker returns the final value of the list object it worked on, and the
  call site adopts that value only when the list it passed was nonempty
  (nonempty lists are aliased, the empty list is replaced by a fresh one).
* AiiDA node lookups (`calcjob.inputs.uploaded.get(label).uuid`,
  `calcjob.inputs.code.computer.uuid`) become function parameters.
* Generators become a pair (list of yielded items, optional raised error).
-/

/-- `data.UploadFile`: local file to be uploaded under the name `tgt_name`. -/
structure UploadFile where
  source : String
  input_label : String
  tgt_name : String
deriving DecidableEq, Repr

/-- `data.RemotePath`: remote path which should be copied or linked. -/
structure RemotePath where
  src_path : String
  tgt_name : String
  copy : Bool
deriving DecidableEq, Repr

/-- `data.FuturePath`: path to be linked from a future. -/
structure FuturePath where
  src_relpath : String
  input_label : String
  tgt_name : String
deriving DecidableEq, Repr

/-- `data.Future`: info about a running calcjob for pre-submitting dependents. -/
structure Future where
  jobid : String
  uuid : String
  workdir : String
deriving DecidableEq, Repr

mutual
/-- `data.TargetDir`: subdirectory of the work dir on the cluster to be
created before running.  The `subdirs` field is a list of `TargetDir`;
it is encoded with the mutual list type `TargetDirList` so that all
recursions stay structural (and hence kernel-computable). -/
inductive TargetDir where
  | mk (name : String) (subdirs : TargetDirList) (upload : List UploadFile)
      (remote : List RemotePath) (from_future : List FuturePath)

/-- Mutual encoding of `list[TargetDir]`. -/
inductive TargetDirList where
  | nil
  | cons (head : TargetDir) (tail : TargetDirList)
end

def TargetDir.name : TargetDir → String
  | .mk n _ _ _ _ => n

def TargetDir.subdirs : TargetDir → TargetDirList
  | .mk _ s _ _ _ => s

def TargetDir.upload : TargetDir → List UploadFile
  | .mk _ _ u _ _ => u

def TargetDir.remote : TargetDir → List RemotePath
  | .mk _ _ _ r _ => r

def TargetDir.from_future : TargetDir → List FuturePath
  | .mk _ _ _ _ f => f

/-- `data.UploadTriplet`: data required for AiiDA to upload a file. -/
structure UploadTriplet where
  uuid : String
  src_name : String
  tgt_path : String
deriving DecidableEq, Repr

/-- `data.RemoteTriplet`: data required to copy or link a remote file. -/
structure RemoteTriplet where
  uuid : String
  src_path : String
  tgt_path : String
deriving DecidableEq, Repr

/-- The triple of instruction lists returned by `create_triplets`:
local-copy (uploads), remote-copy, remote-link. -/
abbrev Triplets := List UploadTriplet × List RemoteTriplet × List RemoteTriplet

/-- `pathlib.Path.name`: the final component of a `/`-separated path. -/
def baseName (s : String) : String :=
  String.mk (s.data.foldl (fun acc c => if c = '/' then [] else acc ++ [c]) [])

/-- `"/".join(segs)`. -/
def joinSegs (segs : List String) : String := String.intercalate "/" segs

def tripletsAppend (a b : Triplets) : Triplets :=
  (a.1 ++ b.1, a.2.1 ++ b.2.1, a.2.2 ++ b.2.2)

mutual
/-- `data.create_triplets(target_dir, calcjob, path, is_root)`.

`uploaded` models `calcjob.inputs.uploaded.get(label).uuid`, and
`computer_uuid` models `calcjob.inputs.code.computer.uuid`.  The second
component of the result is the final value of the (mutable) `path` list
object the call worked on; see the module comment for the aliasing rule. -/
def create_triplets (uploaded : String → String) (computer_uuid : String)
    (t : TargetDir) (path : List String) (is_root : Bool) : Triplets × List String :=
  match t with
  | .mk nm subdirs upload remote _ =>
    let path1 := if is_root then path else path ++ [nm]
    let sub := create_triplets_subdirs uploaded computer_uuid subdirs path1
    let pathF := sub.2
    let local_copy := sub.1.1 ++ upload.map (fun file =>
      UploadTriplet.mk (uploaded file.input_label) (baseName file.source)
        (joinSegs (pathF ++ [file.tgt_name])))
    let remote_triplets := remote.map (fun file =>
      (file.copy, RemoteTriplet.mk computer_uuid file.src_path
        (joinSegs (pathF ++ [file.tgt_name]))))
    let remote_copy := sub.1.2.1 ++ (remote_triplets.filter (fun i => i.1)).map (fun i => i.2)
    let remote_link := sub.1.2.2 ++ (remote_triplets.filter (fun i => !i.1)).map (fun i => i.2)
    ((local_copy, remote_copy, remote_link), pathF)

/-- The `for subdir in target_dir.subdirs` loop of `create_triplets`,
threading the state of the shared `path` list through the iterations. -/
def create_triplets_subdirs (uploaded : String → String) (computer_uuid : String)
    (ts : TargetDirList) (path : List String) : Triplets × List String :=
  match ts with
  | .nil => (([], [], []), path)
  | .cons s ss =>
    let r := create_triplets uploaded computer_uuid s path false
    -- the recursive call sees the same list object only when `path` is
    -- nonempty (`path = path or []` in the callee copies the empty list)
    let pathNext := if path = [] then path else r.2
    let rest := create_triplets_subdirs uploaded computer_uuid ss pathNext
    (tripletsAppend r.1 rest.1, rest.2)
end

/-- Top-level call `create_triplets(target_dir, calcjob)` (Python defaults
`path=None`, `is_root=True`). -/
def create_triplets_main (uploaded : String → String) (computer_uuid : String)
    (t : TargetDir) : Triplets :=
  (create_triplets uploaded computer_uuid t [] true).1

def exUpl : String → String := fun _ => "uuid-cfg"

def exTreeDepth1 : TargetDir :=
  .mk "root"
    (.cons (.mk "config" .nil [⟨"/loc/foo.config", "config_file", "input.config"⟩] [] [])
      (.cons (.mk "out-files" .nil [] [] []) .nil))
    []
    [⟨"/some/absolute/path/somefile.xml", "data.xml", true⟩,
     ⟨"/some/path/to/dir", "datadir", false⟩]
    []

/-- Failing input for C1: a depth-2 chain `root → a → b` with an upload
attached to the intermediate node `a`. -/
def exTreeC1 : TargetDir :=
  .mk "root"
    (.cons
      (.mk "a" (.cons (.mk "b" .nil [] [] []) .nil)
        [⟨"/loc/foo.config", "cfg", "input.config"⟩] [] [])
      .nil)
    [] [] []

mutual
/-- `data.create_dirs(target_dir, folder, path, is_root)`.

A sandbox `folders.Folder` is modelled by its path (list of segments
below the sandbox root); `folder.get_subfolder(rel, create=True)` creates
the directory `folder ++ rel` and returns it.  The first component of the
result lists the created directories in creation order; the second is the
final value of the shared `path` list (same aliasing rule as
`create_triplets`). -/
def create_dirs (t : TargetDir) (folder : List String) (path : List String)
    (is_root : Bool) : List (List String) × List String :=
  match t with
  | .mk nm subdirs _ _ _ =>
    let path1 := if is_root then path else path ++ [nm]
    create_dirs_subdirs subdirs folder path1

/-- The `for subdir in target_dir.subdirs` loop of `create_dirs`:
`subfolder = folder.get_subfolder("/".join([*path, subdir.name]), create=True)`
followed by the recursive call on `subfolder`. -/
def create_dirs_subdirs (ts : TargetDirList) (folder : List String)
    (path : List String) : List (List String) × List String :=
  match ts with
  | .nil => ([], path)
  | .cons s ss =>
    let sub := folder ++ path ++ [s.name]
    let r := create_dirs s sub path false
    let pathNext := if path = [] then path else r.2
    let rest := create_dirs_subdirs ss folder pathNext
    (sub :: (r.1 ++ rest.1), rest.2)
end

/-- Top-level call `create_dirs(target_dir, folder)` in
`GenericCalculation.prepare_for_submission` (sandbox root folder,
Python defaults `path=None`, `is_root=True`). -/
def create_dirs_main (t : TargetDir) : List (List String) :=
  (create_dirs t [] [] true).1

/-- Failing input for C7: a depth-2 chain `root → c → g`. -/
def exTreeC7 : TargetDir :=
  .mk "root" (.cons (.mk "c" (.cons (.mk "g" .nil [] [] []) .nil) [] [] []) .nil) [] [] []

/-- `pathlib` path joining `a / b` (the left operand is `Path()` when the
accumulated path is still empty). -/
def joinPath (a b : String) : String := if a = "" then b else a ++ "/" ++ b

/-- The body of the `for file in target_dir.from_future` loop of
`iter_future_links`: commands yielded so far, plus the message of the
`ValueError` raised at the first `input_label` missing from the futures
namespace (if any). -/
def emit_links (files : List FuturePath) (futures : String → Option Future)
    (path : String) : List String × Option String :=
  match files with
  | [] => ([], none)
  | file :: rest =>
    match futures file.input_label with
    | some future =>
      let cmd := "ln -s " ++ joinPath future.workdir file.src_relpath ++ " " ++
        joinPath path file.tgt_name
      let r := emit_links rest futures path
      (cmd :: r.1, r.2)
    | none =>
      ([], some ("The given futures namespace is missing the " ++
        file.input_label ++ " input."))

mutual
/-- `data.iter_future_links(target_dir, futures_ns, path, is_root)`.

The Python function is a generator; it is modelled by the pair (list of
commands yielded before the generator finishes or raises, message of the
raised `ValueError`, if any). -/
def iter_future_links (t : TargetDir) (futures : String → Option Future)
    (path : String) (is_root : Bool) : List String × Option String :=
  match t with
  | .mk nm subdirs _ _ from_future =>
    let p := if is_root then path else joinPath path nm
    let own := emit_links from_future futures p
    match own.2 with
    | some e => (own.1, some e)
    | none =>
      let rest := iter_future_links_subdirs subdirs futures p
      (own.1 ++ rest.1, rest.2)

/-- The `for subdir in target_dir.subdirs: yield from ...` loop of
`iter_future_links`. -/
def iter_future_links_subdirs (ts : TargetDirList) (futures : String → Option Future)
    (path : String) : List String × Option String :=
  match ts with
  | .nil => ([], none)
  | .cons s ss =>
    let r := iter_future_links s futures path false
    match r.2 with
    | some e => (r.1, some e)
    | none =>
      let rest := iter_future_links_subdirs ss futures path
      (r.1 ++ rest.1, rest.2)
end

mutual
/-- The deferred links of a staging tree in traversal order (a node's own
`from_future` entries first, then its subtrees in order), each paired with
the `/`-joined path of the node that declares it. -/
def linkSeq (t : TargetDir) (path : String) (is_root : Bool) :
    List (String × FuturePath) :=
  match t with
  | .mk nm subdirs _ _ from_future =>
    let p := if is_root then path else joinPath path nm
    from_future.map (fun f => (p, f)) ++ linkSeqList subdirs p

/-- `linkSeq` over a list of subtrees. -/
def linkSeqList (ts : TargetDirList) (path : String) : List (String × FuturePath) :=
  match ts with
  | .nil => []
  | .cons s ss => linkSeq s path false ++ linkSeqList ss path
end

/-- Sequential resolution of a flat sequence of deferred links: emit one
command per link until the first link whose `input_label` is missing from
the futures namespace, then stop with the `ValueError` message. -/
def processSeq (futures : String → Option Future) :
    List (String × FuturePath) → List String × Option String
  | [] => ([], none)
  | pf :: rest =>
    match futures pf.2.input_label with
    | some future =>
      let cmd := "ln -s " ++ joinPath future.workdir pf.2.src_relpath ++ " " ++
        joinPath pf.1 pf.2.tgt_name
      let r := processSeq futures rest
      (cmd :: r.1, r.2)
    | none =>
      ([], some ("The given futures namespace is missing the " ++
        pf.2.input_label ++ " input."))

mutual
/-- The `input_label`s of all deferred links of a staging tree (the keys
of the futures namespace that the tree references), in traversal order. -/
def futureLabels (t : TargetDir) : List String :=
  match t with
  | .mk _ subdirs _ _ from_future =>
    from_future.map (fun f => f.input_label) ++ futureLabelsList subdirs

/-- `futureLabels` over a list of subtrees. -/
def futureLabelsList (ts : TargetDirList) : List String :=
  match ts with
  | .nil => []
  | .cons s ss => futureLabels s ++ futureLabelsList ss
end

/-- Counterexample input for C3: one resolvable deferred link followed by
one whose key is absent from the futures namespace. -/
def exTreeC3 : TargetDir :=
  .mk "root" .nil [] []
    [⟨"out.txt", "dep_0", "input.txt"⟩, ⟨"other.txt", "dep_1", "other.txt"⟩]

def exFuturesC3 : String → Option Future := fun l =>
  if l = "dep_0" then some ⟨"42", "uuid-a", "/scratch/a"⟩ else none

/-! ## Graph scheduler (`graph.py`) -/

/-- `data.Job`: job description (only the work dir). -/
structure Job where
  workdir : TargetDir

/-- `data.Graph`: job dependency graph, `nodes` ordered, `edges` as
`(producer, consumer)` index pairs. -/
structure Graph where
  nodes : List Job
  edges : List (Nat × Nat)

/-- Append a node to an insertion-ordered node list unless already present
(how `nx.DiGraph` accumulates its node set while edges are added). -/
def addNode (v : Nat) (acc : List Nat) : List Nat :=
  if v ∈ acc then acc else acc ++ [v]

/-- The node set of `nx.DiGraph(edges)`: every endpoint of an edge, in
insertion order.  Nodes of the job graph that appear in no edge are not in
this set. -/
def dagNodes (edges : List (Nat × Nat)) : List Nat :=
  edges.foldl (fun acc e => addNode e.2 (addNode e.1 acc)) []

/-- Whether `v` has an incoming edge whose source is still in `remaining`. -/
def hasIncoming (edges : List (Nat × Nat)) (remaining : List Nat) (v : Nat) : Bool :=
  edges.any (fun e => e.2 == v && remaining.contains e.1)

/-- Kahn layering (`nx.topological_generations`): repeatedly output the
nodes of `remaining` with no incoming edge from `remaining`, then drop
them.  `fuel` bounds the number of rounds; `(dagNodes edges).length` is
always enough because every productive round removes at least one node. -/
def kahn (edges : List (Nat × Nat)) : Nat → List Nat → List (List Nat)
  | 0, _ => []
  | fuel + 1, remaining =>
    let gen := remaining.filter (fun v => !hasIncoming edges remaining v)
    if gen.isEmpty then []
    else gen :: kahn edges fuel (remaining.filter (fun v => !gen.contains v))

/-- `list(nx.topological_generations(nx.DiGraph(edges)))` as computed by
`GraphWorkchain.start`. -/
def topological_generations (edges : List (Nat × Nat)) : List (List Nat) :=
  kahn edges (dagNodes edges).length (dagNodes edges)

/-- `nx.is_directed_acyclic_graph(nx.DiGraph(edges))`: the layering
consumes every node of the graph. -/
def is_directed_acyclic_graph (edges : List (Nat × Nat)) : Bool :=
  (dagNodes edges).all (fun v => (topological_generations edges).flatten.contains v)

/-- `dag.predecessors(v)`: sources of the edges into `v`, deduplicated in
insertion order (adjacency of `nx.DiGraph` is a set). -/
def predecessors (edges : List (Nat × Nat)) (v : Nat) : List Nat :=
  ((edges.filter (fun e => e.2 == v)).map Prod.fst).foldl (fun acc u => addNode u acc) []

/-- Terminal outcome of a `GraphWorkchain` run: exit code 0, the exit
codes 500 `NOT_A_DAG` / 501 `JOB_FAILED` declared in
`GraphWorkchain.define`, or an uncaught Python exception (the
`AttributeError` raised by `not_reached_end` reading `ctx.node_async`
when nothing was ever submitted). -/
inductive ExitCode where
  | normal
  | notADag
  | jobFailed
  | excepted
deriving DecidableEq, Repr

/-- Result of a `GraphWorkchain` run: exit code, node indices submitted
(in submission order), and the underlying jobs awaited by
`not_reached_end` before `finalize`. -/
structure RunResult where
  exitCode : ExitCode
  submitted : List Nat
  waited : List Nat
deriving DecidableEq, Repr

/-- `GraphWorkchain.submit_front` over one generation: for each node, if
any predecessor's advance-submission workchain is not `finished_ok`
(`subOk`), return `exit_codes.JOB_FAILED` at once (`.error`, carrying the
nodes submitted so far); otherwise submit the node. -/
def submit_front (edges : List (Nat × Nat)) (subOk : Nat → Bool) :
    List Nat → List Nat → Except (List Nat) (List Nat)
  | [], acc => .ok acc
  | v :: rest, acc =>
    if (predecessors edges v).all subOk then
      submit_front edges subOk rest (acc ++ [v])
    else
      .error acc

/-- The `while_(not_reached_end)(submit_front)` loop: one `submit_front`
call per generation, stopping at the first `JOB_FAILED`. -/
def run_generations (edges : List (Nat × Nat)) (subOk : Nat → Bool) :
    List (List Nat) → List Nat → Except (List Nat) (List Nat)
  | [], acc => .ok acc
  | g :: gs, acc =>
    match submit_front edges subOk g acc with
    | .ok acc1 => run_generations edges subOk gs acc1
    | .error acc1 => .error acc1

/-- A complete `GraphWorkchain` run on `graph`:
`start` (DAG validation and layering), the `submit_front` loop,
`not_reached_end`'s final wait on every submitted node's underlying job,
and `finalize` (which only reports "All done.", ignoring `jobOk`).

`subOk i` is whether node `i`'s advance-submission workchain reaches
`finished_ok`; `jobOk i` is whether its underlying job finishes
successfully.  Returning an `ExitCode` from an outline step aborts the
workchain, so on `JOB_FAILED` nothing further is submitted or awaited; if
the run finishes with no submission at all, `not_reached_end` raises
`AttributeError` on the absent `ctx.node_async` (`.excepted`). -/
def runGraphWorkchain (graph : Graph) (subOk : Nat → Bool) (jobOk : Nat → Bool) :
    RunResult :=
  if is_directed_acyclic_graph graph.edges then
    match run_generations graph.edges subOk (topological_generations graph.edges) [] with
    | .error subs => ⟨.jobFailed, subs, []⟩
    | .ok subs => if subs.isEmpty then ⟨.excepted, subs, []⟩ else ⟨.normal, subs, subs⟩
  else ⟨.notADag, [], []⟩

/-- The list of nodes submitted so far, whether or not `submit_front` /
`run_generations` aborted with `JOB_FAILED`. -/
def exceptList (r : Except (List Nat) (List Nat)) : List Nat :=
  match r with
  | .ok l => l
  | .error l => l

/-- Nonempty directed path along `edges`. -/
inductive EPath (edges : List (Nat × Nat)) : Nat → Nat → Prop where
  | single {u v : Nat} : (u, v) ∈ edges → EPath edges u v
  | cons {u v w : Nat} : (u, v) ∈ edges → EPath edges v w → EPath edges u w

/-- The edge list contains a directed cycle. -/
def HasCycle (edges : List (Nat × Nat)) : Prop := ∃ v, EPath edges v v

def exJob : Job := ⟨.mk "root" .nil [] [] []⟩

/-- Three jobs, one edge `(0, 1)`: job 2 appears in no edge. -/
def exGraphC2 : Graph := ⟨[exJob, exJob, exJob], [(0, 1)]⟩

/-- A small diamond-free DAG used to instantiate the layering theorem. -/
def exGraphDag : Graph := ⟨[exJob, exJob, exJob], [(0, 1), (0, 2)]⟩

/-- Two jobs with a 2-cycle between them. -/
def exGraphCycle : Graph := ⟨[exJob, exJob], [(0, 1), (1, 0)]⟩

/-- Two jobs, one dependency edge `(0, 1)`. -/
def exGraphChain : Graph := ⟨[exJob, exJob], [(0, 1)]⟩

/-- Advance submission of node 0 failed (for instance timed out); all
others succeeded. -/
def subOkFail0 : Nat → Bool := fun i => i != 0

/-- Every underlying job finishes successfully. -/
def jobOkAll : Nat → Bool := fun _ => true

/-- Every underlying job finishes unsuccessfully. -/
def jobOkNone : Nat → Bool := fun _ => false

/-! ## Advance-submission polling loop (`future.py`) -/

/-- `plumpy.ProcessState` of the submitted calcjob, as read through
`orm.load_node(uuid).process_state`. -/
inductive ProcessState where
  | created
  | running
  | waiting
  | finished
  | excepted
  | killed
deriving DecidableEq, Repr

/-- Externally visible state of the submitted calcjob at one inspection:
`get_job_id()`, `get_remote_workdir()` and `process_state`. -/
structure JobView where
  job_id : Option String
  remote_workdir : Option String
  process_state : ProcessState
deriving DecidableEq, Repr

/-- The loop guard of `wait_for_submitted`: negation of
`get_job_id() is None or get_remote_workdir() is None`. -/
def queued (o : JobView) : Bool := o.job_id.isSome && o.remote_workdir.isSome

/-- Terminal outcome of `wait_for_submitted`: normal return (the job is
queued), `SubmittingTimedOutError`, `NotSubmittedError` (state
`EXCEPTED`), or `KilledBeforeSubmittedError` (state `KILLED`).  Both
error outcomes record `time_waited` where the code puts it in the
message. -/
inductive WaitOutcome where
  | success (time_waited : Nat)
  | timedOut (time_waited : Nat)
  | notSubmitted
  | killedBeforeSubmitted
deriving DecidableEq, Repr

/-- One iteration of `wait_for_submitted`'s `while` loop, starting its
`n`-th check (`time_waited = n * poll_interval`; `obs k` is the job view
seen after `k` sleeps): return normally if the job is queued; raise
`SubmittingTimedOutError` if `time_waited >= timeout`; otherwise sleep
and match on `process_state`, raising on `EXCEPTED` or `KILLED`;
otherwise continue (`none`). -/
def wait_step (obs : Nat → JobView) (poll_interval timeout : Nat) (n : Nat) :
    Option WaitOutcome :=
  if queued (obs n) then some (.success (n * poll_interval))
  else if timeout ≤ n * poll_interval then some (.timedOut (n * poll_interval))
  else
    match (obs (n + 1)).process_state with
    | .excepted => some .notSubmitted
    | .killed => some .killedBeforeSubmitted
    | _ => none

/-- The `while` loop of `wait_for_submitted`, iterated from check `n`
with `fuel` iterations available (`none` = fuel exhausted). -/
def waitGo (obs : Nat → JobView) (poll_interval timeout : Nat) :
    Nat → Nat → Option WaitOutcome
  | _, 0 => none
  | n, fuel + 1 =>
    match wait_step obs poll_interval timeout n with
    | some r => some r
    | none => waitGo obs poll_interval timeout (n + 1) fuel

/-- `future.wait_for_submitted(uuid, poll_interval, timeout)` run against
the observation sequence `obs`.  `timeout + 2` iterations always suffice
when `poll_interval ≥ 1` (the timeout guard fires at `n = timeout` at the
latest). -/
def wait_for_submitted (obs : Nat → JobView) (poll_interval timeout : Nat) :
    Option WaitOutcome :=
  waitGo obs poll_interval timeout 0 (timeout + 2)

/-- A job that never gets a scheduler id or a remote work dir. -/
def exObsC8 : Nat → JobView := fun _ => ⟨none, none, .running⟩

/-- A job that already has a scheduler id and a remote work dir at the
first check, while its lifecycle state is already `KILLED`. -/
def exObsC9 : Nat → JobView := fun _ => ⟨some "42", some "/scratch/j", .killed⟩

/-- One deferred link referencing `dep_0` (the spec's §8 scenario). -/
def exTreeC10 : TargetDir :=
  .mk "root" .nil [] [] [⟨"out.txt", "dep_0", "input.txt"⟩]

/-- Futures namespace holding exactly the referenced key `dep_0`. -/
def exFutC10a : String → Option Future := fun l =>
  if l = "dep_0" then some ⟨"7", "uuid-a", "/scratch/a"⟩ else none

/-- Futures namespace agreeing with `exFutC10a` on `dep_0` but holding an
entry for every other (unreferenced) key as well. -/
def exFutC10b : String → Option Future := fun l =>
  if l = "dep_0" then some ⟨"7", "uuid-a", "/scratch/a"⟩
  else some ⟨"9", "uuid-x", "/tmp/x"⟩

/-- The command that the resolver emits for one deferred link, when its
`futureKey` is present in the mapping. -/
def resolvedCmd (futures : String → Option Future) (pf : String × FuturePath) :
    Option String :=
  (futures pf.2.input_label).map (fun future =>
    "ln -s " ++ joinPath future.workdir pf.2.src_relpath ++ " " ++
      joinPath pf.1 pf.2.tgt_name)

/-! ## List helpers -/

theorem mem_getD_flatten {α : Type} {ls : List (List α)} {x : α} {i : Nat}
    (h : x ∈ ls.getD i []) : x ∈ ls.flatten := by
  induction ls generalizing i with
  | nil => simp [List.getD] at h
  | cons g gs ih =>
    cases i with
    | zero => simpa using Or.inl h
    | succ j =>
      have : x ∈ gs.flatten := ih (by simpa [List.getD] using h)
      simp [this]

theorem getD_unique_of_flatten_nodup {α : Type} {ls : List (List α)} {x : α}
    {i j : Nat} (hn : ls.flatten.Nodup) (hi : x ∈ ls.getD i []) (hj : x ∈ ls.getD j []) :
    i = j := by
  induction ls generalizing i j with
  | nil => simp [List.getD] at hi
  | cons g gs ih =>
    rw [List.flatten_cons, List.nodup_append] at hn
    obtain ⟨hg, hgs, hdisj⟩ := hn
    cases i with
    | zero =>
      cases j with
      | zero => rfl
      | succ j1 =>
        have hx : x ∈ gs.flatten := mem_getD_flatten (by simpa [List.getD] using hj)
        exact absurd hx (hdisj (by simpa [List.getD] using hi))
    | succ i1 =>
      cases j with
      | zero =>
        have hx : x ∈ gs.flatten := mem_getD_flatten (by simpa [List.getD] using hi)
        exact absurd hx (hdisj (by simpa [List.getD] using hj))
      | succ j1 =>
        have := ih hgs (by simpa [List.getD] using hi) (by simpa [List.getD] using hj)
        omega

/-! ## dagNodes -/

theorem mem_addNode {v x : Nat} {acc : List Nat} :
    x ∈ addNode v acc ↔ x = v ∨ x ∈ acc := by
  unfold addNode
  split <;> rename_i hmem
  · constructor
    · exact Or.inr
    · rintro (rfl | h) <;> [exact hmem; exact h]
  · simp [or_comm]

theorem nodup_addNode {v : Nat} {acc : List Nat} (h : acc.Nodup) :
    (addNode v acc).Nodup := by
  unfold addNode
  split
  · exact h
  · rename_i hv
    simpa [List.nodup_append, h] using fun hmem => hv hmem

theorem mem_dagNodes_aux {edges : List (Nat × Nat)} {acc : List Nat} {x : Nat} :
    x ∈ edges.foldl (fun acc e => addNode e.2 (addNode e.1 acc)) acc ↔
      x ∈ acc ∨ ∃ e ∈ edges, x = e.1 ∨ x = e.2 := by
  induction edges generalizing acc with
  | nil => simp
  | cons e es ih =>
    rw [List.foldl_cons, ih]
    simp only [mem_addNode, List.mem_cons]
    constructor
    · rintro ((rfl | rfl | h) | ⟨e1, he1, h1⟩)
      · exact Or.inr ⟨e, Or.inl rfl, Or.inr rfl⟩
      · exact Or.inr ⟨e, Or.inl rfl, Or.inl rfl⟩
      · exact Or.inl h
      · exact Or.inr ⟨e1, Or.inr he1, h1⟩
    · rintro (h | ⟨e1, (rfl | he1), h1⟩)
      · exact Or.inl (Or.inr (Or.inr h))
      · rcases h1 with rfl | rfl
        · exact Or.inl (Or.inr (Or.inl rfl))
        · exact Or.inl (Or.inl rfl)
      · exact Or.inr ⟨e1, he1, h1⟩

theorem mem_dagNodes {edges : List (Nat × Nat)} {x : Nat} :
    x ∈ dagNodes edges ↔ ∃ e ∈ edges, x = e.1 ∨ x = e.2 := by
  unfold dagNodes
  rw [mem_dagNodes_aux]
  simp

theorem mem_dagNodes_fst {edges : List (Nat × Nat)} {u v : Nat}
    (h : (u, v) ∈ edges) : u ∈ dagNodes edges :=
  mem_dagNodes.mpr ⟨(u, v), h, Or.inl rfl⟩

theorem mem_dagNodes_snd {edges : List (Nat × Nat)} {u v : Nat}
    (h : (u, v) ∈ edges) : v ∈ dagNodes edges :=
  mem_dagNodes.mpr ⟨(u, v), h, Or.inr rfl⟩

theorem dagNodes_nodup (edges : List (Nat × Nat)) : (dagNodes edges).Nodup := by
  unfold dagNodes
  have aux : ∀ (es : List (Nat × Nat)) (acc : List Nat), acc.Nodup →
      (es.foldl (fun acc e => addNode e.2 (addNode e.1 acc)) acc).Nodup := by
    intro es
    induction es with
    | nil => intro acc h; simpa using h
    | cons e es ih =>
      intro acc h
      exact ih _ (nodup_addNode (nodup_addNode h))
  exact aux edges [] List.nodup_nil

/-! ## Kahn layering lemmas -/

theorem hasIncoming_eq_false {edges : List (Nat × Nat)} {rem : List Nat} {v : Nat}
    (h : hasIncoming edges rem v = false) : ∀ u, (u, v) ∈ edges → u ∉ rem := by
  intro u hu hmem
  unfold hasIncoming at h
  rw [List.any_eq_false] at h
  have h2 := h (u, v) hu
  simp only [beq_self_eq_true, Bool.true_and, Bool.not_eq_true] at h2
  have h3 : rem.contains u = true := by simpa [List.elem_iff] using hmem
  rw [h3] at h2
  cases h2

theorem kahn_zero (edges : List (Nat × Nat)) (rem : List Nat) :
    kahn edges 0 rem = [] := rfl

theorem kahn_succ (edges : List (Nat × Nat)) (f : Nat) (rem : List Nat) :
    kahn edges (f + 1) rem =
      if (rem.filter (fun v => !hasIncoming edges rem v)).isEmpty then []
      else rem.filter (fun v => !hasIncoming edges rem v) ::
        kahn edges f (rem.filter (fun v =>
          !(rem.filter (fun y => !hasIncoming edges rem y)).contains v)) := rfl

theorem kahn_flatten_subset (edges : List (Nat × Nat)) :
    ∀ (fuel : Nat) (rem : List Nat), ∀ x ∈ (kahn edges fuel rem).flatten, x ∈ rem := by
  intro fuel
  induction fuel with
  | zero => intro rem x hx; simp [kahn] at hx
  | succ f ih =>
    intro rem x hx
    rw [kahn] at hx
    split at hx
    · simp at hx
    · rw [List.flatten_cons, List.mem_append] at hx
      rcases hx with hx | hx
      · exact (List.mem_filter.mp hx).1
      · exact (List.mem_filter.mp (ih _ x hx)).1

theorem kahn_flatten_nodup (edges : List (Nat × Nat)) :
    ∀ (fuel : Nat) (rem : List Nat), rem.Nodup → (kahn edges fuel rem).flatten.Nodup := by
  intro fuel
  induction fuel with
  | zero => intro rem _; simp [kahn]
  | succ f ih =>
    intro rem hrem
    rw [kahn]
    split
    · simp
    · rw [List.flatten_cons, List.nodup_append]
      refine ⟨hrem.filter _, ih _ (hrem.filter _), ?_⟩
      intro x hxgen hxrest
      have hx := List.mem_filter.mp (kahn_flatten_subset edges f _ x hxrest)
      rw [Bool.not_eq_eq_eq_not, Bool.not_true, ← Bool.not_eq_true, List.elem_iff] at hx
      exact hx.2 hxgen

theorem kahn_pred_earlier (edges : List (Nat × Nat)) :
    ∀ (fuel : Nat) (rem ctx : List Nat),
      (∀ u v, (u, v) ∈ edges → v ∈ rem → u ∈ ctx ∨ u ∈ rem) →
      ∀ (j : Nat) (v : Nat), v ∈ (kahn edges fuel rem).getD j [] →
        ∀ u, (u, v) ∈ edges →
          u ∈ ctx ∨ ∃ i, i < j ∧ u ∈ (kahn edges fuel rem).getD i [] := by
  intro fuel
  induction fuel with
  | zero => intro rem ctx _ j v hv; simp [kahn_zero, List.getD] at hv
  | succ f ih =>
    intro rem ctx hinv j v hv u hu
    by_cases hgen : (rem.filter (fun y => !hasIncoming edges rem y)).isEmpty
    · rw [kahn_succ, if_pos hgen] at hv
      simp [List.getD] at hv
    · rw [kahn_succ, if_neg hgen] at hv ⊢
      cases j with
      | zero =>
        simp only [List.getD_cons_zero] at hv
        have hvf := List.mem_filter.mp hv
        rw [Bool.not_eq_eq_eq_not, Bool.not_true] at hvf
        have hnot := hasIncoming_eq_false hvf.2 u hu
        rcases hinv u v hu hvf.1 with h | h
        · exact Or.inl h
        · exact absurd h hnot
      | succ j1 =>
        simp only [List.getD_cons_succ] at hv
        have hinv1 : ∀ a b, (a, b) ∈ edges →
            b ∈ rem.filter (fun x =>
              !(rem.filter (fun y => !hasIncoming edges rem y)).contains x) →
            a ∈ ctx ++ rem.filter (fun y => !hasIncoming edges rem y) ∨
            a ∈ rem.filter (fun x =>
              !(rem.filter (fun y => !hasIncoming edges rem y)).contains x) := by
          intro a b hab hb
          have hbrem := (List.mem_filter.mp hb).1
          rcases hinv a b hab hbrem with h | h
          · exact Or.inl (List.mem_append.mpr (Or.inl h))
          · by_cases hgenmem :
              a ∈ rem.filter (fun y => !hasIncoming edges rem y)
            · exact Or.inl (List.mem_append.mpr (Or.inr hgenmem))
            · refine Or.inr (List.mem_filter.mpr ⟨h, ?_⟩)
              have hc : (rem.filter (fun y => !hasIncoming edges rem y)).contains a
                  = false := by
                rw [← Bool.not_eq_true, List.elem_iff]
                simpa using hgenmem
              rw [hc]
              rfl
        rcases ih _ _ hinv1 j1 v hv u hu with h | ⟨i, hi, hmem⟩
        · rcases List.mem_append.mp h with h | h
          · exact Or.inl h
          · exact Or.inr ⟨0, Nat.succ_pos _, by simpa using h⟩
        · exact Or.inr ⟨i + 1, by omega, by simpa using hmem⟩

theorem mem_flatten_getD {α : Type} {ls : List (List α)} {x : α}
    (h : x ∈ ls.flatten) : ∃ j, x ∈ ls.getD j [] := by
  induction ls with
  | nil => simp at h
  | cons g gs ih =>
    rw [List.flatten_cons, List.mem_append] at h
    rcases h with h | h
    · exact ⟨0, by simpa using h⟩
    · obtain ⟨j, hj⟩ := ih h
      exact ⟨j + 1, by simpa using hj⟩

/-- Instance of `kahn_pred_earlier` for the top-level call in
`GraphWorkchain.start`: a predecessor always sits in a strictly earlier
generation. -/
theorem topo_pred_earlier {edges : List (Nat × Nat)} {u v : Nat}
    (hu : (u, v) ∈ edges) {j : Nat}
    (hv : v ∈ (topological_generations edges).getD j []) :
    ∃ i, i < j ∧ u ∈ (topological_generations edges).getD i [] := by
  have hinv : ∀ a b, (a, b) ∈ edges → b ∈ dagNodes edges →
      a ∈ ([] : List Nat) ∨ a ∈ dagNodes edges :=
    fun a b hab _ => Or.inr (mem_dagNodes_fst hab)
  rcases kahn_pred_earlier edges (dagNodes edges).length (dagNodes edges) [] hinv
      j v hv u hu with h | h
  · simp at h
  · exact h

/-! ## Directed paths and cycles -/

theorem epath_trans {edges : List (Nat × Nat)} {a b c : Nat}
    (h1 : EPath edges a b) (h2 : EPath edges b c) : EPath edges a c := by
  induction h1 with
  | single h => exact .cons h h2
  | cons h _ ih => exact .cons h (ih h2)

theorem epath_src_mem_dagNodes {edges : List (Nat × Nat)} {u v : Nat}
    (h : EPath edges u v) : u ∈ dagNodes edges := by
  cases h with
  | single h => exact mem_dagNodes_fst h
  | cons h _ => exact mem_dagNodes_fst h

theorem epath_earlier {edges : List (Nat × Nat)} {u v : Nat}
    (h : EPath edges u v) :
    ∀ j, v ∈ (topological_generations edges).getD j [] →
      ∃ i, i < j ∧ u ∈ (topological_generations edges).getD i [] := by
  induction h with
  | single h => exact fun j hv => topo_pred_earlier h hv
  | cons h _ ih =>
    intro j hv
    obtain ⟨k, hk, hw⟩ := ih j hv
    obtain ⟨i, hi, hu⟩ := topo_pred_earlier h hw
    exact ⟨i, by omega, hu⟩

/-- Soundness of the DAG check: an edge list with a directed cycle never
passes `nx.is_directed_acyclic_graph`. -/
theorem hasCycle_isDag_false {edges : List (Nat × Nat)} (h : HasCycle edges) :
    is_directed_acyclic_graph edges = false := by
  obtain ⟨v, hv⟩ := h
  by_contra hne
  rw [Bool.not_eq_false] at hne
  unfold is_directed_acyclic_graph at hne
  rw [List.all_eq_true] at hne
  have hvmem : v ∈ (topological_generations edges).flatten := by
    have := hne v (epath_src_mem_dagNodes hv)
    simpa [List.elem_iff] using this
  have hex : ∃ j, v ∈ (topological_generations edges).getD j [] :=
    mem_flatten_getD hvmem
  have hspec := Nat.find_spec hex
  obtain ⟨i, hi, hvi⟩ := epath_earlier hv _ hspec
  exact Nat.find_min hex hi hvi

/-- If the graph has no directed cycle, some node of a nonempty remaining
set has no incoming edge from it (Kahn's algorithm makes progress). -/
theorem kahn_progress {edges : List (Nat × Nat)} (hnc : ¬ HasCycle edges)
    {rem : List Nat} (hne : rem ≠ []) :
    ∃ m ∈ rem, hasIncoming edges rem m = false := by
  have : IsTrans {x : Nat // x ∈ rem} (fun a b => EPath edges a.1 b.1) :=
    ⟨fun _ _ _ h1 h2 => epath_trans h1 h2⟩
  have : IsIrrefl {x : Nat // x ∈ rem} (fun a b => EPath edges a.1 b.1) :=
    ⟨fun a h => hnc ⟨a.1, h⟩⟩
  have hwf : WellFounded (fun a b : {x : Nat // x ∈ rem} => EPath edges a.1 b.1) :=
    Finite.wellFounded_of_trans_of_irrefl _
  obtain ⟨x, hx⟩ := List.exists_mem_of_ne_nil rem hne
  obtain ⟨m, _, hmin⟩ := hwf.has_min Set.univ ⟨⟨x, hx⟩, Set.mem_univ _⟩
  refine ⟨m.1, m.2, ?_⟩
  by_contra hinc
  rw [Bool.not_eq_false] at hinc
  unfold hasIncoming at hinc
  rw [List.any_eq_true] at hinc
  obtain ⟨e, he, hcond⟩ := hinc
  rw [Bool.and_eq_true, beq_iff_eq] at hcond
  have hsrc : e.1 ∈ rem := by
    have := hcond.2
    rwa [List.elem_iff] at this
  have hedge : (e.1, m.1) ∈ edges := by
    have : e = (e.1, e.2) := rfl
    rw [this, hcond.1] at he
    exact he
  exact hmin ⟨e.1, hsrc⟩ (Set.mem_univ _) (.single hedge)

/-- Completeness of the layering: with enough fuel and no cycle, Kahn's
algorithm consumes every remaining node. -/
theorem kahn_covers {edges : List (Nat × Nat)} (hnc : ¬ HasCycle edges) :
    ∀ (fuel : Nat) (rem : List Nat), rem.length ≤ fuel →
      ∀ v ∈ rem, v ∈ (kahn edges fuel rem).flatten := by
  intro fuel
  induction fuel with
  | zero =>
    intro rem hlen v hv
    rw [List.length_eq_zero.mp (Nat.le_zero.mp hlen)] at hv
    simp at hv
  | succ f ih =>
    intro rem hlen v hv
    have hne : rem ≠ [] := fun h => by simp [h] at hv
    obtain ⟨m, hm, hminc⟩ := kahn_progress hnc hne
    have hmgen : m ∈ rem.filter (fun y => !hasIncoming edges rem y) :=
      List.mem_filter.mpr ⟨hm, by simp [hminc]⟩
    have hgen : (rem.filter (fun y => !hasIncoming edges rem y)).isEmpty = false := by
      rw [← Bool.not_eq_true, List.isEmpty_iff]
      intro h
      rw [h] at hmgen
      simp at hmgen
    rw [kahn_succ, if_neg (by simp [hgen]), List.flatten_cons, List.mem_append]
    by_cases hvgen : v ∈ rem.filter (fun y => !hasIncoming edges rem y)
    · exact Or.inl hvgen
    · refine Or.inr ?_
      have hv1 : v ∈ rem.filter (fun x =>
          !(rem.filter (fun y => !hasIncoming edges rem y)).contains x) := by
        refine List.mem_filter.mpr ⟨hv, ?_⟩
        have hc : (rem.filter (fun y => !hasIncoming edges rem y)).contains v
            = false := by
          rw [← Bool.not_eq_true, List.elem_iff]
          simpa using hvgen
        rw [hc]
        rfl
      refine ih _ ?_ v hv1
      have hdrop : (rem.filter (fun x =>
          !(rem.filter (fun y => !hasIncoming edges rem y)).contains x)).length
          < rem.length := by
        rw [List.length_filter_lt_length_iff_exists]
        refine ⟨m, hm, ?_⟩
        have hc : (rem.filter (fun y => !hasIncoming edges rem y)).contains m
            = true := by
          rw [List.elem_iff]
          exact hmgen
        rw [hc]
        simp
      omega

/-- The executable DAG check agrees with the mathematical notion of
acyclicity of the edge list. -/
theorem isDag_iff_not_hasCycle (edges : List (Nat × Nat)) :
    is_directed_acyclic_graph edges = true ↔ ¬ HasCycle edges := by
  constructor
  · intro h hc
    rw [hasCycle_isDag_false hc] at h
    cases h
  · intro hnc
    unfold is_directed_acyclic_graph
    rw [List.all_eq_true]
    intro v hvmem
    have := kahn_covers hnc (dagNodes edges).length (dagNodes edges) le_rfl v hvmem
    simpa [topological_generations, List.elem_iff] using this

/-- Coverage extracted from a successful DAG check. -/
theorem isDag_covers {edges : List (Nat × Nat)}
    (h : is_directed_acyclic_graph edges = true) :
    ∀ v ∈ dagNodes edges, v ∈ (topological_generations edges).flatten := by
  intro v hv
  unfold is_directed_acyclic_graph at h
  rw [List.all_eq_true] at h
  have := h v hv
  simpa [List.elem_iff] using this

/-! ## Scheduler lemmas -/

theorem mem_foldl_addNode {l acc : List Nat} {x : Nat} :
    x ∈ l.foldl (fun acc u => addNode u acc) acc ↔ x ∈ acc ∨ x ∈ l := by
  induction l generalizing acc with
  | nil => simp
  | cons a as ih =>
    rw [List.foldl_cons, ih]
    simp only [mem_addNode, List.mem_cons]
    tauto

theorem mem_predecessors {edges : List (Nat × Nat)} {u v : Nat} :
    u ∈ predecessors edges v ↔ (u, v) ∈ edges := by
  unfold predecessors
  rw [mem_foldl_addNode]
  simp only [List.not_mem_nil, false_or, List.mem_map, List.mem_filter]
  constructor
  · rintro ⟨e, ⟨he, hev⟩, rfl⟩
    rw [beq_iff_eq] at hev
    have : e = (e.1, e.2) := rfl
    rw [this, hev] at he
    exact he
  · intro h
    exact ⟨(u, v), ⟨h, by simp⟩, rfl⟩

theorem submit_front_ok {edges : List (Nat × Nat)} {subOk : Nat → Bool} :
    ∀ {gen acc res : List Nat}, submit_front edges subOk gen acc = .ok res →
      res = acc ++ gen ∧ ∀ v ∈ gen, (predecessors edges v).all subOk = true := by
  intro gen
  induction gen with
  | nil =>
    intro acc res h
    simp only [submit_front] at h
    cases h
    simp
  | cons v rest ih =>
    intro acc res h
    simp only [submit_front] at h
    split at h
    · rename_i hchk
      obtain ⟨hres, hall⟩ := ih h
      refine ⟨by simp [hres], ?_⟩
      intro w hw
      rcases List.mem_cons.mp hw with rfl | hw
      · exact hchk
      · exact hall w hw
    · cases h

theorem submit_front_anc {edges : List (Nat × Nat)} {subOk : Nat → Bool} :
    ∀ (gen acc : List Nat),
      (∀ v ∈ acc, ∀ u, (u, v) ∈ edges → subOk u = true ∧ u ∈ acc) →
      (∀ v ∈ gen, ∀ u, (u, v) ∈ edges → u ∈ acc) →
      (∀ v ∈ exceptList (submit_front edges subOk gen acc), ∀ u, (u, v) ∈ edges →
        subOk u = true ∧ u ∈ exceptList (submit_front edges subOk gen acc)) ∧
      (∀ x ∈ acc, x ∈ exceptList (submit_front edges subOk gen acc)) := by
  intro gen
  induction gen with
  | nil =>
    intro acc hacc _
    exact ⟨by simpa [submit_front, exceptList] using hacc,
      by simp [submit_front, exceptList]⟩
  | cons v rest ih =>
    intro acc hacc hgen
    simp only [submit_front]
    split
    · rename_i hchk
      have hacc1 : ∀ w ∈ acc ++ [v], ∀ u, (u, w) ∈ edges →
          subOk u = true ∧ u ∈ acc ++ [v] := by
        intro w hw u hu
        rcases List.mem_append.mp hw with hw | hw
        · obtain ⟨h1, h2⟩ := hacc w hw u hu
          exact ⟨h1, List.mem_append.mpr (Or.inl h2)⟩
        · rcases List.mem_singleton.mp hw with rfl
          have hup : u ∈ predecessors edges w := mem_predecessors.mpr hu
          rw [List.all_eq_true] at hchk
          exact ⟨hchk u hup,
            List.mem_append.mpr (Or.inl (hgen w (List.mem_cons_self _ _) u hu))⟩
      have hgen1 : ∀ w ∈ rest, ∀ u, (u, w) ∈ edges → u ∈ acc ++ [v] := by
        intro w hw u hu
        exact List.mem_append.mpr
          (Or.inl (hgen w (List.mem_cons_of_mem _ hw) u hu))
      obtain ⟨h1, h2⟩ := ih (acc ++ [v]) hacc1 hgen1
      refine ⟨h1, ?_⟩
      intro x hx
      exact h2 x (List.mem_append.mpr (Or.inl hx))
    · exact ⟨by simpa [exceptList] using hacc, by simp [exceptList]⟩

theorem run_generations_ok {edges : List (Nat × Nat)} {subOk : Nat → Bool} :
    ∀ {gens : List (List Nat)} {acc res : List Nat},
      run_generations edges subOk gens acc = .ok res →
      res = acc ++ gens.flatten ∧
        ∀ g ∈ gens, ∀ v ∈ g, (predecessors edges v).all subOk = true := by
  intro gens
  induction gens with
  | nil =>
    intro acc res h
    simp only [run_generations] at h
    cases h
    simp
  | cons g gs ih =>
    intro acc res h
    simp only [run_generations] at h
    split at h
    · rename_i acc1 hsf
      obtain ⟨hres, hall⟩ := ih h
      obtain ⟨hacc1, hg⟩ := submit_front_ok hsf
      subst hacc1
      refine ⟨by simp [hres], ?_⟩
      intro g1 hg1
      rcases List.mem_cons.mp hg1 with rfl | hg1
      · exact hg
      · exact hall g1 hg1
    · cases h

theorem run_generations_anc {edges : List (Nat × Nat)} {subOk : Nat → Bool} :
    ∀ (gens : List (List Nat)) (acc : List Nat),
      (∀ v ∈ acc, ∀ u, (u, v) ∈ edges → subOk u = true ∧ u ∈ acc) →
      (∀ (j : Nat) (v : Nat), v ∈ gens.getD j [] → ∀ u, (u, v) ∈ edges →
        u ∈ acc ∨ ∃ i, i < j ∧ u ∈ gens.getD i []) →
      ∀ v ∈ exceptList (run_generations edges subOk gens acc), ∀ u, (u, v) ∈ edges →
        subOk u = true ∧ u ∈ exceptList (run_generations edges subOk gens acc) := by
  intro gens
  induction gens with
  | nil =>
    intro acc hacc _
    simpa [run_generations, exceptList] using hacc
  | cons g gs ih =>
    intro acc hacc hpe
    have hgen : ∀ v ∈ g, ∀ u, (u, v) ∈ edges → u ∈ acc := by
      intro v hv u hu
      rcases hpe 0 v (by simpa using hv) u hu with h | ⟨i, hi, _⟩
      · exact h
      · omega
    simp only [run_generations]
    split
    · rename_i acc1 hsf
      obtain ⟨hacc1, hg⟩ := submit_front_ok hsf
      subst hacc1
      have hanc := (submit_front_anc g acc hacc hgen).1
      rw [hsf] at hanc
      simp only [exceptList] at hanc
      have hpe1 : ∀ (j : Nat) (v : Nat), v ∈ gs.getD j [] → ∀ u, (u, v) ∈ edges →
          u ∈ acc ++ g ∨ ∃ i, i < j ∧ u ∈ gs.getD i [] := by
        intro j v hv u hu
        rcases hpe (j + 1) v (by simpa using hv) u hu with h | ⟨i, hi, hmem⟩
        · exact Or.inl (List.mem_append.mpr (Or.inl h))
        · cases i with
          | zero => exact Or.inl (List.mem_append.mpr (Or.inr (by simpa using hmem)))
          | succ i1 => exact Or.inr ⟨i1, by omega, by simpa using hmem⟩
      exact ih (acc ++ g) hanc hpe1
    · rename_i acc1 hsf
      have hanc := (submit_front_anc g acc hacc hgen).1
      rw [hsf] at hanc
      simpa [exceptList] using hanc

/-- Along the submitted list, failure of any transitive predecessor's
advance-submission propagates: a node is in the list only if all its
`EPath`-ancestors are submitted with successful advance-submissions. -/
theorem anc_epath {edges : List (Nat × Nat)} {subOk : Nat → Bool} {L : List Nat}
    (hanc : ∀ v ∈ L, ∀ u, (u, v) ∈ edges → subOk u = true ∧ u ∈ L)
    {x w : Nat} (hp : EPath edges x w) (hw : w ∈ L) :
    subOk x = true ∧ x ∈ L := by
  induction hp with
  | single h => exact hanc _ hw _ h
  | cons h _ ih =>
    obtain ⟨_, hmem⟩ := ih hw
    exact hanc _ hmem _ h

/-! ## Deferred-link resolver lemmas -/

theorem emit_links_eq_processSeq (futures : String → Option Future) :
    ∀ (files : List FuturePath) (p : String),
      emit_links files futures p = processSeq futures (files.map (fun x => (p, x))) := by
  intro files
  induction files with
  | nil => intro p; rfl
  | cons file rest ih =>
    intro p
    simp only [emit_links, List.map_cons, processSeq]
    cases futures file.input_label <;> simp [ih]

theorem processSeq_append (futures : String → Option Future) :
    ∀ (a b : List (String × FuturePath)),
      processSeq futures (a ++ b) =
        if (processSeq futures a).2.isSome then processSeq futures a
        else ((processSeq futures a).1 ++ (processSeq futures b).1,
          (processSeq futures b).2) := by
  intro a
  induction a with
  | nil => intro b; simp [processSeq]
  | cons pf rest ih =>
    intro b
    simp only [List.cons_append, processSeq]
    cases hf : futures pf.2.input_label with
    | none => simp
    | some fut =>
      dsimp only
      rw [List.append_eq, ih b]
      by_cases h2 : (processSeq futures rest).2.isSome
      · simp [h2]
      · simp [h2]

theorem processSeq_append_error {futures : String → Option Future}
    {a : List (String × FuturePath)} {e : String}
    (h : (processSeq futures a).2 = some e) (b : List (String × FuturePath)) :
    processSeq futures (a ++ b) = ((processSeq futures a).1, some e) := by
  rw [processSeq_append]
  rw [if_pos (by simp [h])]
  rw [← h]

theorem processSeq_append_none {futures : String → Option Future}
    {a : List (String × FuturePath)}
    (h : (processSeq futures a).2 = none) (b : List (String × FuturePath)) :
    processSeq futures (a ++ b) =
      ((processSeq futures a).1 ++ (processSeq futures b).1,
        (processSeq futures b).2) := by
  rw [processSeq_append]
  rw [if_neg (by simp [h])]

mutual
theorem iter_future_links_eq (t : TargetDir) (futures : String → Option Future)
    (path : String) (is_root : Bool) :
    iter_future_links t futures path is_root =
      processSeq futures (linkSeq t path is_root) :=
  match t with
  | .mk nm subdirs u rm ff => by
    simp only [iter_future_links, linkSeq]
    rw [emit_links_eq_processSeq]
    cases h : (processSeq futures
        (ff.map (fun f => (if is_root then path else joinPath path nm, f)))).2 with
    | some e => rw [processSeq_append_error h]
    | none =>
      rw [processSeq_append_none h,
        iter_future_links_subdirs_eq subdirs futures]

theorem iter_future_links_subdirs_eq (ts : TargetDirList)
    (futures : String → Option Future) (path : String) :
    iter_future_links_subdirs ts futures path =
      processSeq futures (linkSeqList ts path) :=
  match ts with
  | .nil => rfl
  | .cons s ss => by
    simp only [iter_future_links_subdirs, linkSeqList]
    rw [iter_future_links_eq s futures path false]
    cases h : (processSeq futures (linkSeq s path false)).2 with
    | some e => rw [processSeq_append_error h]
    | none =>
      rw [processSeq_append_none h, iter_future_links_subdirs_eq ss futures path]
end

mutual
theorem linkSeq_labels (t : TargetDir) (path : String) (is_root : Bool) :
    (linkSeq t path is_root).map (fun pf => pf.2.input_label) = futureLabels t :=
  match t with
  | .mk nm subdirs u rm ff => by
    simp only [linkSeq, futureLabels, List.map_append, List.map_map]
    rw [linkSeqList_labels subdirs]
    rfl

theorem linkSeqList_labels (ts : TargetDirList) (path : String) :
    (linkSeqList ts path).map (fun pf => pf.2.input_label) = futureLabelsList ts :=
  match ts with
  | .nil => rfl
  | .cons s ss => by
    simp only [linkSeqList, futureLabelsList, List.map_append]
    rw [linkSeq_labels s path false, linkSeqList_labels ss path]
end

theorem processSeq_congr {f g : String → Option Future} :
    ∀ (s : List (String × FuturePath)),
      (∀ pf ∈ s, f pf.2.input_label = g pf.2.input_label) →
      processSeq f s = processSeq g s := by
  intro s
  induction s with
  | nil => intro _; rfl
  | cons pf rest ih =>
    intro h
    have hhead := h pf (List.mem_cons_self _ _)
    have htail := ih (fun x hx => h x (List.mem_cons_of_mem _ hx))
    simp only [processSeq, ← hhead, htail]

theorem processSeq_no_error {f : String → Option Future} :
    ∀ (s : List (String × FuturePath)),
      (∀ pf ∈ s, (f pf.2.input_label).isSome = true) →
      (processSeq f s).2 = none := by
  intro s
  induction s with
  | nil => intro _; rfl
  | cons pf rest ih =>
    intro h
    have hhead := h pf (List.mem_cons_self _ _)
    obtain ⟨fut, hfut⟩ := Option.isSome_iff_exists.mp hhead
    have htail := ih (fun x hx => h x (List.mem_cons_of_mem _ hx))
    simp [processSeq, hfut, htail]

theorem processSeq_missing {f : String → Option Future} :
    ∀ (s : List (String × FuturePath)),
      (∃ pf ∈ s, f pf.2.input_label = none) →
      (processSeq f s).1 =
        (s.takeWhile (fun pf => (f pf.2.input_label).isSome)).filterMap
          (resolvedCmd f) ∧
      ∃ pf0, (s.dropWhile (fun pf => (f pf.2.input_label).isSome)).head? = some pf0 ∧
        f pf0.2.input_label = none ∧
        (processSeq f s).2 = some ("The given futures namespace is missing the " ++
          pf0.2.input_label ++ " input.") := by
  intro s
  induction s with
  | nil => rintro ⟨pf, hmem, _⟩; simp at hmem
  | cons pf rest ih =>
    rintro ⟨pf1, hmem, hnone⟩
    cases hf : f pf.2.input_label with
    | none =>
      refine ⟨?_, pf, ?_, hf, ?_⟩
      · simp [processSeq, hf, List.takeWhile_cons, Option.isSome]
      · simp [List.dropWhile_cons, hf, Option.isSome]
      · simp [processSeq, hf]
    | some fut =>
      have hrest : ∃ x ∈ rest, f x.2.input_label = none := by
        rcases List.mem_cons.mp hmem with rfl | hmem1
        · rw [hf] at hnone; cases hnone
        · exact ⟨pf1, hmem1, hnone⟩
      obtain ⟨ih1, pf0, ih2, ih3, ih4⟩ := ih hrest
      refine ⟨?_, pf0, ?_, ih3, ?_⟩
      · simp [processSeq, hf, List.takeWhile_cons, Option.isSome, ih1,
          List.filterMap_cons, resolvedCmd]
      · simpa [List.dropWhile_cons, hf, Option.isSome] using ih2
      · simp [processSeq, hf, ih4]

/-! ## Polling-loop lemmas -/

theorem waitGo_none {obs : Nat → JobView} {poll_interval timeout : Nat} :
    ∀ (fuel n : Nat), waitGo obs poll_interval timeout n fuel = none →
      ∀ k, n ≤ k → k < n + fuel → wait_step obs poll_interval timeout k = none := by
  intro fuel
  induction fuel with
  | zero => intro n _ k _ hk; omega
  | succ f ih =>
    intro n h k hnk hk
    rw [waitGo] at h
    cases hs : wait_step obs poll_interval timeout n with
    | some r => rw [hs] at h; cases h
    | none =>
      rw [hs] at h
      rcases Nat.eq_or_lt_of_le hnk with rfl | hlt
      · exact hs
      · exact ih (n + 1) h k hlt (by omega)

theorem waitGo_sound {obs : Nat → JobView} {poll_interval timeout : Nat} :
    ∀ (fuel n : Nat) (r : WaitOutcome),
      waitGo obs poll_interval timeout n fuel = some r →
      ∃ m, n ≤ m ∧ wait_step obs poll_interval timeout m = some r ∧
        ∀ k, n ≤ k → k < m → wait_step obs poll_interval timeout k = none := by
  intro fuel
  induction fuel with
  | zero => intro n r h; cases h
  | succ f ih =>
    intro n r h
    rw [waitGo] at h
    cases hs : wait_step obs poll_interval timeout n with
    | some r1 =>
      rw [hs] at h
      cases h
      exact ⟨n, le_rfl, hs, fun k h1 h2 => by omega⟩
    | none =>
      rw [hs] at h
      obtain ⟨m, hm1, hm2, hm3⟩ := ih (n + 1) r h
      refine ⟨m, by omega, hm2, ?_⟩
      intro k h1 h2
      rcases Nat.eq_or_lt_of_le h1 with rfl | hlt
      · exact hs
      · exact hm3 k hlt h2

theorem wait_step_fires {obs : Nat → JobView} {poll_interval timeout k : Nat}
    (h : timeout ≤ k * poll_interval) :
    wait_step obs poll_interval timeout k ≠ none := by
  unfold wait_step
  by_cases hq : queued (obs k) = true
  · simp [hq]
  · simp only [hq, Bool.false_eq_true, if_false, if_pos h]
    simp

theorem wait_for_submitted_isSome {obs : Nat → JobView} {poll_interval timeout : Nat}
    (hp : 1 ≤ poll_interval) :
    (wait_for_submitted obs poll_interval timeout).isSome = true := by
  unfold wait_for_submitted
  cases hw : waitGo obs poll_interval timeout 0 (timeout + 2) with
  | some r => rfl
  | none =>
    exfalso
    have hk := waitGo_none (timeout + 2) 0 hw timeout (by omega) (by omega)
    have : timeout ≤ timeout * poll_interval :=
      le_mul_of_one_le_right (Nat.zero_le _) hp
    exact wait_step_fires this hk

theorem wait_step_inv {obs : Nat → JobView} {poll_interval timeout m : Nat}
    {r : WaitOutcome} (h : wait_step obs poll_interval timeout m = some r) :
    (r = .success (m * poll_interval) ∧ queued (obs m) = true) ∨
    (r = .timedOut (m * poll_interval) ∧ queued (obs m) = false ∧
      timeout ≤ m * poll_interval) ∨
    (r = .notSubmitted ∧ queued (obs m) = false ∧ m * poll_interval < timeout ∧
      (obs (m + 1)).process_state = .excepted) ∨
    (r = .killedBeforeSubmitted ∧ queued (obs m) = false ∧
      m * poll_interval < timeout ∧ (obs (m + 1)).process_state = .killed) := by
  unfold wait_step at h
  by_cases hq : queued (obs m) = true
  · rw [if_pos hq] at h
    cases h
    exact Or.inl ⟨rfl, hq⟩
  · rw [if_neg hq] at h
    rw [Bool.not_eq_true] at hq
    by_cases ht : timeout ≤ m * poll_interval
    · rw [if_pos ht] at h
      cases h
      exact Or.inr (Or.inl ⟨rfl, hq, ht⟩)
    · rw [if_neg ht] at h
      cases hst : (obs (m + 1)).process_state <;> rw [hst] at h
      case neg.excepted =>
        cases h
        exact Or.inr (Or.inr (Or.inl ⟨rfl, hq, by omega, rfl⟩))
      case neg.killed =>
        cases h
        exact Or.inr (Or.inr (Or.inr ⟨rfl, hq, by omega, rfl⟩))
      all_goals cases h

/-! ## Claims -/

/-- C1: the claim says every upload / remote-copy / remote-link triplet of
`create_triplets` has `tgt_path` equal to the `/`-joined names of the
node's ancestors (excluding the root) followed by the item's target name,
in particular for trees of depth two or more.  The code violates this: the
mutable `path` list is shared between a node and its subtree (`path = path
or []` only copies an empty list), so after recursing into subdirectories
the subtree's names stay on the list.  On `root → a → b` with an upload
attached to `a`, the upload's target path comes out as
`"a/b/input.config"` instead of the claimed `"a/input.config"`. -/
theorem c1_create_triplets_depth2_target_path :
    (create_triplets_main exUpl "cu" exTreeC1).1 =
      [⟨"uuid-cfg", "foo.config", "a/b/input.config"⟩] ∧
    ∀ tr ∈ (create_triplets_main exUpl "cu" exTreeC1).1,
      tr.tgt_path ≠ "a/input.config" := by decide

/-- C2 (counterexample): the claim says every node of the job graph —
including nodes that appear in no edge — is assigned to exactly one
generation.  `GraphWorkchain.start` builds the DiGraph from the edge list
alone, so in the acyclic graph `exGraphC2` with three nodes and single
edge `(0, 1)`, node 2 belongs to no generation at all. -/
theorem c2_isolated_node_counterexample :
    exGraphC2.nodes.length = 3 ∧
    is_directed_acyclic_graph exGraphC2.edges = true ∧
    ∀ gen ∈ topological_generations exGraphC2.edges, 2 ∉ gen := by decide

/-- C2 (amended): for every job graph passing the scheduler's DAG
validation, the topological layering assigns every node that appears in
at least one edge to exactly one generation (full coverage of `dagNodes`
plus a duplicate-free flattening), every edge `(u, v)` places `u` in a
strictly earlier generation than `v`, and nodes that appear in no edge are
assigned to no generation. -/
theorem c2_topological_generations_amended (g : Graph)
    (h : is_directed_acyclic_graph g.edges = true) :
    (∀ v ∈ dagNodes g.edges, v ∈ (topological_generations g.edges).flatten) ∧
    (topological_generations g.edges).flatten.Nodup ∧
    (∀ u v, (u, v) ∈ g.edges → ∀ i j,
      u ∈ (topological_generations g.edges).getD i [] →
      v ∈ (topological_generations g.edges).getD j [] → i < j) ∧
    (∀ v, v ∉ dagNodes g.edges → v ∉ (topological_generations g.edges).flatten) := by
  have hnodup : (topological_generations g.edges).flatten.Nodup := by
    unfold topological_generations
    exact kahn_flatten_nodup _ _ _ (dagNodes_nodup _)
  refine ⟨isDag_covers h, hnodup, ?_, ?_⟩
  · intro u v huv i j hi hj
    obtain ⟨i1, hi1, hu1⟩ := topo_pred_earlier huv hj
    have : i = i1 := getD_unique_of_flatten_nodup hnodup hi hu1
    omega
  · intro v hv hvf
    unfold topological_generations at hvf
    exact hv (kahn_flatten_subset _ _ _ v hvf)

/-- C2 (witness): the amended layering theorem applied to the concrete
DAG `exGraphDag`. -/
theorem c2_witness :
    is_directed_acyclic_graph exGraphDag.edges = true ∧
    ((∀ v ∈ dagNodes exGraphDag.edges,
        v ∈ (topological_generations exGraphDag.edges).flatten) ∧
      (topological_generations exGraphDag.edges).flatten.Nodup ∧
      (∀ u v, (u, v) ∈ exGraphDag.edges → ∀ i j,
        u ∈ (topological_generations exGraphDag.edges).getD i [] →
        v ∈ (topological_generations exGraphDag.edges).getD j [] → i < j) ∧
      (∀ v, v ∉ dagNodes exGraphDag.edges →
        v ∉ (topological_generations exGraphDag.edges).flatten)) :=
  ⟨by decide, c2_topological_generations_amended exGraphDag (by decide)⟩

/-- C3 (counterexample): the claim says a missing `futureKey` makes
resolution fail before any shell command is emitted, regardless of the
offending link's position.  `iter_future_links` is a generator: on
`exTreeC3` (a resolvable link followed by a missing one) it yields the
first link's `ln -s` command before raising the `ValueError`. -/
theorem c3_partial_output_counterexample :
    (iter_future_links exTreeC3 exFuturesC3 "" true).2.isSome = true ∧
    (iter_future_links exTreeC3 exFuturesC3 "" true).1 =
      ["ln -s /scratch/a/out.txt input.txt"] := by decide

/-- C3 (amended): if any deferred link of the tree references a key absent
from the futures mapping, resolution fails with the `MissingFutureError`
(`ValueError`) naming the first offending link in traversal order, and the
commands emitted before the failure are exactly those of the deferred
links strictly preceding that link in traversal order — in particular no
command at all when the offending link comes first. -/
theorem c3_missing_future_amended (t : TargetDir)
    (futures : String → Option Future) (path : String) (is_root : Bool)
    (h : ∃ pf ∈ linkSeq t path is_root, futures pf.2.input_label = none) :
    (iter_future_links t futures path is_root).1 =
      ((linkSeq t path is_root).takeWhile
        (fun pf => (futures pf.2.input_label).isSome)).filterMap
          (resolvedCmd futures) ∧
    ∃ pf0, ((linkSeq t path is_root).dropWhile
        (fun pf => (futures pf.2.input_label).isSome)).head? = some pf0 ∧
      futures pf0.2.input_label = none ∧
      (iter_future_links t futures path is_root).2 =
        some ("The given futures namespace is missing the " ++
          pf0.2.input_label ++ " input.") := by
  rw [iter_future_links_eq]
  exact processSeq_missing _ h

/-- C3 (witness): the amended resolution theorem applied to the concrete
tree `exTreeC3` with the mapping `exFuturesC3` missing `dep_1`. -/
theorem c3_witness :
    (∃ pf ∈ linkSeq exTreeC3 "" true, exFuturesC3 pf.2.input_label = none) ∧
    ((iter_future_links exTreeC3 exFuturesC3 "" true).1 =
      ((linkSeq exTreeC3 "" true).takeWhile
        (fun pf => (exFuturesC3 pf.2.input_label).isSome)).filterMap
          (resolvedCmd exFuturesC3) ∧
    ∃ pf0, ((linkSeq exTreeC3 "" true).dropWhile
        (fun pf => (exFuturesC3 pf.2.input_label).isSome)).head? = some pf0 ∧
      exFuturesC3 pf0.2.input_label = none ∧
      (iter_future_links exTreeC3 exFuturesC3 "" true).2 =
        some ("The given futures namespace is missing the " ++
          pf0.2.input_label ++ " input.")) :=
  ⟨by decide, c3_missing_future_amended exTreeC3 exFuturesC3 "" true (by decide)⟩

/-- C4 (counterexample): the claim says the scheduler reports overall
success if and only if all underlying jobs finished successfully, and
otherwise reports `JobFailed`.  On `exGraphChain` with all
advance-submissions succeeding but every underlying job failing
(`jobOkNone`), `finalize` still reports success: the run's exit code is
normal even though the waited-on jobs all failed. -/
theorem c4_job_failure_ignored_counterexample :
    (runGraphWorkchain exGraphChain jobOkAll jobOkNone).exitCode = .normal ∧
    (runGraphWorkchain exGraphChain jobOkAll jobOkNone).waited = [0, 1] ∧
    jobOkNone 0 = false ∧ jobOkNone 1 = false := by decide

/-- C4 (amended): when a run completes normally, `not_reached_end` has
waited for the underlying job of every submitted node, and the result —
including the success report — is independent of the underlying jobs'
outcomes: `finalize` only reports "All done." and never consults them, so
no `JobFailed` is reported at finalization. -/
theorem c4_finalize_amended (g : Graph) (subOk jobOk : Nat → Bool)
    (h : (runGraphWorkchain g subOk jobOk).exitCode = .normal) :
    (runGraphWorkchain g subOk jobOk).waited =
      (runGraphWorkchain g subOk jobOk).submitted ∧
    ∀ jobOk1, runGraphWorkchain g subOk jobOk1 = runGraphWorkchain g subOk jobOk := by
  refine ⟨?_, fun _ => rfl⟩
  unfold runGraphWorkchain at h ⊢
  by_cases hd : is_directed_acyclic_graph g.edges = true
  · rw [if_pos hd] at h ⊢
    cases hr : run_generations g.edges subOk (topological_generations g.edges) [] with
    | ok subs =>
      rw [hr] at h
      dsimp only at h ⊢
      by_cases he : subs.isEmpty
      · rw [if_pos he] at h; cases h
      · rw [if_neg he]
    | error subs =>
      rw [hr] at h
      dsimp only at h
      cases h
  · rw [if_neg hd] at h
    cases h

/-- C4 (witness): the amended finalization theorem applied to the
concrete graph `exGraphChain`. -/
theorem c4_witness :
    (runGraphWorkchain exGraphChain jobOkAll jobOkAll).exitCode = .normal ∧
    ((runGraphWorkchain exGraphChain jobOkAll jobOkAll).waited =
        (runGraphWorkchain exGraphChain jobOkAll jobOkAll).submitted ∧
      ∀ jobOk1, runGraphWorkchain exGraphChain jobOkAll jobOk1 =
        runGraphWorkchain exGraphChain jobOkAll jobOkAll) :=
  ⟨by decide, c4_finalize_amended exGraphChain jobOkAll jobOkAll (by decide)⟩

/-- C5: for every job graph whose edges contain a directed cycle,
`GraphWorkchain.start` exits with `NOT_A_DAG` before any submission: the
run submits no node and waits on nothing. -/
theorem c5_cycle_rejected (g : Graph) (subOk jobOk : Nat → Bool)
    (h : HasCycle g.edges) :
    runGraphWorkchain g subOk jobOk = ⟨.notADag, [], []⟩ := by
  have hf := hasCycle_isDag_false h
  unfold runGraphWorkchain
  rw [if_neg (by simp [hf])]

/-- C5 (witness): the cycle-rejection theorem applied to the concrete
cyclic graph `exGraphCycle`. -/
theorem c5_witness :
    HasCycle exGraphCycle.edges ∧
    runGraphWorkchain exGraphCycle jobOkAll jobOkAll = ⟨.notADag, [], []⟩ := by
  have hc : HasCycle exGraphCycle.edges :=
    ⟨0, @EPath.cons exGraphCycle.edges 0 1 0 (by decide)
      (@EPath.single exGraphCycle.edges 1 0 (by decide))⟩
  exact ⟨hc, c5_cycle_rejected exGraphCycle jobOkAll jobOkAll hc⟩

/-- C6: if a node `v` has a predecessor `u` whose advance-submission
workchain did not finish successfully (for instance it timed out), the
scheduler never submits `v`, exits with the dependency-failure exit code
(`JOB_FAILED`, the code's name for the spec's `DependencyFailed`), and no
node downstream of `v` is submitted either. -/
theorem c6_dependency_failure_short_circuit (g : Graph)
    (subOk jobOk : Nat → Bool) {u v : Nat}
    (hdag : is_directed_acyclic_graph g.edges = true)
    (hedge : (u, v) ∈ g.edges) (hfail : subOk u = false) :
    (runGraphWorkchain g subOk jobOk).exitCode = .jobFailed ∧
    v ∉ (runGraphWorkchain g subOk jobOk).submitted ∧
    ∀ w, EPath g.edges v w → w ∉ (runGraphWorkchain g subOk jobOk).submitted := by
  have hpe : ∀ (j : Nat) (x : Nat),
      x ∈ (topological_generations g.edges).getD j [] → ∀ y, (y, x) ∈ g.edges →
      y ∈ ([] : List Nat) ∨ ∃ i, i < j ∧
        y ∈ (topological_generations g.edges).getD i [] :=
    fun j x hx y hy => Or.inr (topo_pred_earlier hy hx)
  have hanc := @run_generations_anc g.edges subOk (topological_generations g.edges)
    [] (by simp) hpe
  cases hr : run_generations g.edges subOk (topological_generations g.edges) [] with
  | ok subs =>
    exfalso
    obtain ⟨hsubs, hall⟩ := run_generations_ok hr
    have hvflat : v ∈ (topological_generations g.edges).flatten :=
      isDag_covers hdag v (mem_dagNodes_snd hedge)
    obtain ⟨gen, hgen, hvgen⟩ := List.mem_flatten.mp hvflat
    have hchk := hall gen hgen v hvgen
    rw [List.all_eq_true] at hchk
    have := hchk u (mem_predecessors.mpr hedge)
    rw [hfail] at this
    cases this
  | error subs =>
    rw [hr] at hanc
    simp only [exceptList] at hanc
    have hrun : runGraphWorkchain g subOk jobOk = ⟨.jobFailed, subs, []⟩ := by
      unfold runGraphWorkchain
      rw [if_pos hdag, hr]
    rw [hrun]
    refine ⟨rfl, ?_, ?_⟩
    · intro hv
      have := (hanc v hv u hedge).1
      rw [hfail] at this
      cases this
    · intro w hpath hw
      have := (anc_epath hanc (.cons hedge hpath) hw).1
      rw [hfail] at this
      cases this

/-- C6 (witness): the short-circuit theorem applied to `exGraphChain`
where node 0's advance-submission failed. -/
theorem c6_witness :
    is_directed_acyclic_graph exGraphChain.edges = true ∧
    (0, 1) ∈ exGraphChain.edges ∧ subOkFail0 0 = false ∧
    ((runGraphWorkchain exGraphChain subOkFail0 jobOkAll).exitCode = .jobFailed ∧
      1 ∉ (runGraphWorkchain exGraphChain subOkFail0 jobOkAll).submitted ∧
      ∀ w, EPath exGraphChain.edges 1 w →
        w ∉ (runGraphWorkchain exGraphChain subOkFail0 jobOkAll).submitted) :=
  ⟨by decide, by decide, by decide,
    @c6_dependency_failure_short_circuit exGraphChain subOkFail0 jobOkAll 0 1
      (by decide) (by decide) (by decide)⟩

/-- C7: the claim says `create_dirs` emits exactly one directory-creation
entry per non-root node, each at the `/`-joined ancestor path excluding
the root.  On the depth-2 chain `root → c → g` the code creates two
entries (one per non-root node), but the entry for `g` is created at
`c/c/g`: the recursive call passes the already-nested subfolder while
also re-joining the accumulated path, duplicating the ancestor segments
(the claim requires `c/g`). -/
theorem c7_create_dirs_depth2_paths :
    create_dirs_main exTreeC7 = [["c"], ["c", "c", "g"]] ∧
    create_dirs_main exTreeC7 ≠ [["c"], ["c", "g"]] := by decide

/-- C8: for a positive poll interval the polling loop of
`wait_for_submitted` terminates with exactly one of the three outcomes,
taken at the first iteration whose guard fires: normal return as soon as
both the scheduler job id and the remote work dir are assigned;
`SubmittingTimedOutError` when `time_waited` reaches the timeout budget
first; `NotSubmittedError` / `KilledBeforeSubmittedError` (the spec's
`SubmitFailed` / `KilledWhileWaiting`) when the state observed after the
sleep is `EXCEPTED` / `KILLED` first. -/
theorem c8_wait_trichotomy (obs : Nat → JobView) (poll_interval timeout : Nat)
    (hp : 1 ≤ poll_interval) :
    ∃ n r, wait_for_submitted obs poll_interval timeout = some r ∧
      (∀ m, m < n → wait_step obs poll_interval timeout m = none) ∧
      ((r = .success (n * poll_interval) ∧ queued (obs n) = true) ∨
       (r = .timedOut (n * poll_interval) ∧ queued (obs n) = false ∧
         timeout ≤ n * poll_interval) ∨
       (r = .notSubmitted ∧ queued (obs n) = false ∧
         n * poll_interval < timeout ∧ (obs (n + 1)).process_state = .excepted) ∨
       (r = .killedBeforeSubmitted ∧ queued (obs n) = false ∧
         n * poll_interval < timeout ∧ (obs (n + 1)).process_state = .killed)) := by
  obtain ⟨r, hr⟩ := Option.isSome_iff_exists.mp
    (@wait_for_submitted_isSome obs poll_interval timeout hp)
  obtain ⟨m, _, hm2, hm3⟩ := waitGo_sound (timeout + 2) 0 r hr
  exact ⟨m, r, hr, fun k hk => hm3 k (Nat.zero_le _) hk, wait_step_inv hm2⟩

/-- C8 (witness): the trichotomy theorem applied to a job that is never
queued, with poll interval 1 and timeout 0 (immediate timeout). -/
theorem c8_witness :
    1 ≤ 1 ∧
    ∃ n r, wait_for_submitted exObsC8 1 0 = some r ∧
      (∀ m, m < n → wait_step exObsC8 1 0 m = none) ∧
      ((r = .success (n * 1) ∧ queued (exObsC8 n) = true) ∨
       (r = .timedOut (n * 1) ∧ queued (exObsC8 n) = false ∧ 0 ≤ n * 1) ∨
       (r = .notSubmitted ∧ queued (exObsC8 n) = false ∧
         n * 1 < 0 ∧ (exObsC8 (n + 1)).process_state = .excepted) ∨
       (r = .killedBeforeSubmitted ∧ queued (exObsC8 n) = false ∧
         n * 1 < 0 ∧ (exObsC8 (n + 1)).process_state = .killed)) :=
  ⟨by decide, c8_wait_trichotomy exObsC8 1 0 (by decide)⟩

/-- C9: if at the very first check the job already has both a scheduler
job id and a remote working directory, the loop returns success
immediately — zero time waited, no sleep — regardless of the job's
lifecycle state (the `EXCEPTED`/`KILLED` checks sit after the sleep and
are never reached). -/
theorem c9_immediate_success_skips_state_checks (obs : Nat → JobView)
    (poll_interval timeout : Nat) (h1 : (obs 0).job_id.isSome = true)
    (h2 : (obs 0).remote_workdir.isSome = true) :
    wait_for_submitted obs poll_interval timeout = some (.success 0) := by
  have hstep : wait_step obs poll_interval timeout 0 = some (.success 0) := by
    unfold wait_step
    rw [if_pos (by simp [queued, h1, h2])]
    simp
  unfold wait_for_submitted
  rw [show timeout + 2 = timeout + 1 + 1 from rfl, waitGo, hstep]

/-- C9 (witness): immediate success on a job whose state is already
`KILLED` at the first check. -/
theorem c9_witness :
    (exObsC9 0).job_id.isSome = true ∧ (exObsC9 0).remote_workdir.isSome = true ∧
    (exObsC9 0).process_state = .killed ∧
    wait_for_submitted exObsC9 1 30 = some (.success 0) :=
  ⟨by decide, by decide, by decide,
    c9_immediate_success_skips_state_checks exObsC9 1 30 (by decide) (by decide)⟩

/-- C10: the resolver's output depends only on the mapping entries whose
keys are referenced by some deferred link of the tree: mappings agreeing
on all referenced keys produce identical command sequences (and identical
error behaviour), and as long as every referenced key is present no error
is raised, whatever entries exist for unreferenced keys. -/
theorem c10_resolver_depends_only_on_referenced_keys (t : TargetDir)
    (f g : String → Option Future) (path : String) (is_root : Bool) :
    ((∀ l ∈ futureLabels t, f l = g l) →
      iter_future_links t f path is_root = iter_future_links t g path is_root) ∧
    ((∀ l ∈ futureLabels t, (f l).isSome = true) →
      (iter_future_links t f path is_root).2 = none) := by
  constructor
  · intro h
    rw [iter_future_links_eq, iter_future_links_eq]
    apply processSeq_congr
    intro pf hpf
    apply h
    rw [← linkSeq_labels t path is_root]
    exact List.mem_map_of_mem _ hpf
  · intro h
    rw [iter_future_links_eq]
    apply processSeq_no_error
    intro pf hpf
    apply h
    rw [← linkSeq_labels t path is_root]
    exact List.mem_map_of_mem _ hpf

/-- C10 (witness): the dependence theorem applied to `exTreeC10` (which
references only `dep_0`) and the two concrete mappings that agree on
`dep_0` but differ on every other key. -/
theorem c10_witness :
    iter_future_links exTreeC10 exFutC10a "" true =
      iter_future_links exTreeC10 exFutC10b "" true ∧
    (iter_future_links exTreeC10 exFutC10b "" true).2 = none :=
  ⟨(c10_resolver_depends_only_on_referenced_keys exTreeC10 exFutC10a exFutC10b
      "" true).1 (by decide),
    (c10_resolver_depends_only_on_referenced_keys exTreeC10 exFutC10b exFutC10b
      "" true).2 (by decide)⟩
